import Mathlib

/-!
# LCBLog — verification of the asynchronous logging core

Shallow embedding of the LCBLog logging library (lcblog.hpp / lcblog.tpp /
lcblog.cpp).  Strings are modelled as `List Char`; the character
classification functions mirror the C `<cctype>` functions in the "C"
locale on the ASCII range (bytes outside the ASCII printable/control
ranges classify as neither alphanumeric, punctuation, nor whitespace,
matching the "C" locale for `unsigned char` values above 127).
-/

set_option maxRecDepth 16000

namespace LCBLog

/-- `std::isspace` in the "C" locale: space, tab, newline, vertical tab,
form feed, carriage return. -/
def isWs (c : Char) : Bool :=
  c == ' ' || c == '\t' || c == '\n' || c == '\x0b' || c == '\x0c' || c == '\r'

/-- `std::isalnum` in the "C" locale: decimal digits and ASCII letters. -/
def isAlnumC (c : Char) : Bool :=
  ('0' ≤ c && c ≤ '9') || ('A' ≤ c && c ≤ 'Z') || ('a' ≤ c && c ≤ 'z')

/-- `std::ispunct` in the "C" locale: printable, not alphanumeric, not the
space character (codes 33–126 minus alphanumerics). -/
def isPunctC (c : Char) : Bool :=
  (33 ≤ c.toNat && c.toNat ≤ 126) && !(isAlnumC c)

/-- The punctuation class of the sanitizer's third pass:
the regex character class `[,\.!?:;]` in `LCBLog::crush`. -/
def isPrePunct (c : Char) : Bool :=
  c == ',' || c == '.' || c == '!' || c == '?' || c == ':' || c == ';'

/-! ## The sanitizer `LCBLog::crush`

`crush` applies five `std::regex_replace` passes in order:
trim `^\s+|\s+$`, collapse `\s+` to a single space, delete `\s+([,\.!?:;])`
keeping the punctuation, delete `\(\s+` keeping the parenthesis, and delete
`\s+\)` keeping the parenthesis.  Each pass is embedded as a recursive
function whose effect on every input string equals the (global,
non-overlapping, leftmost, greedy) regex replacement. -/

/-- Pass 1 of `LCBLog::crush`: `regex_replace(s, "^\s+|\s+$", "")` —
remove the maximal leading and trailing whitespace runs. -/
def trimL (s : List Char) : List Char :=
  ((s.dropWhile isWs).reverse.dropWhile isWs).reverse

/-- Pass 2 of `LCBLog::crush`: `regex_replace(s, "\s+", " ")` — each
maximal whitespace run becomes one space (emitted at the last character
of the run, which yields the same string as emitting it at the first). -/
def collapseL : List Char → List Char
  | [] => []
  | [c] => if isWs c then [' '] else [c]
  | c :: d :: t =>
      if isWs c then
        if isWs d then collapseL (d :: t) else ' ' :: collapseL (d :: t)
      else c :: collapseL (d :: t)

/-- Worker for passes 3 and 5 of `LCBLog::crush`.  `pend` holds the
whitespace run read so far (in reverse): on a character of the trigger
class the run is deleted, on any other non-whitespace character it is
kept. -/
def dropWsGo (p : Char → Bool) (pend : List Char) : List Char → List Char
  | [] => pend.reverse
  | c :: cs =>
      if isWs c then dropWsGo p (c :: pend) cs
      else if p c then c :: dropWsGo p [] cs
      else pend.reverse ++ c :: dropWsGo p [] cs

/-- Passes 3 and 5 of `LCBLog::crush`, generic in the trigger class:
`regex_replace(s, "\s+(X)", "$1")` for a character class `X` containing
no whitespace — delete every maximal whitespace run that is immediately
followed by a character of the class. -/
def dropWsBefore (p : Char → Bool) (s : List Char) : List Char :=
  dropWsGo p [] s

/-- Worker for pass 4 of `LCBLog::crush`.  The flag records whether the
scan stands just after an opening parenthesis (with only whitespace,
now deleted, in between). -/
def parenOpenGo (afterParen : Bool) : List Char → List Char
  | [] => []
  | c :: cs =>
      if afterParen && isWs c then parenOpenGo true cs
      else if c = '(' then c :: parenOpenGo true cs
      else c :: parenOpenGo false cs

/-- Pass 4 of `LCBLog::crush`: `regex_replace(s, "\(\s+", "(")` — delete
every whitespace run immediately following an opening parenthesis. -/
def parenOpenL (s : List Char) : List Char :=
  parenOpenGo false s

/-- `LCBLog::crush`: the five regex passes in source order. -/
def crushL (s : List Char) : List Char :=
  dropWsBefore (fun c => c == ')')
    (parenOpenL (dropWsBefore isPrePunct (collapseL (trimL s))))

/-- `LCBLog::crush` on `String`s. -/
def crushStr (s : String) : String :=
  ⟨crushL s.data⟩

/-! ### Normal form of the sanitizer

A string is in sanitizer normal form when no pass of `crush` can change
it: no whitespace at either end, every whitespace character a single
space, and no space adjacent to the trigger characters of passes 3–5.
Note that no condition involves `[` `]` `{` `}`: the bracket-specific
passes fire for parentheses only. -/

/-- No two adjacent whitespace characters (pass 2 finds nothing). -/
def Rws (c d : Char) : Prop := ¬(isWs c = true ∧ isWs d = true)

/-- No whitespace immediately before `, . ! ? : ;` (pass 3 finds
nothing). -/
def Rpre (c d : Char) : Prop := ¬(isWs c = true ∧ isPrePunct d = true)

/-- No whitespace immediately after `(` (pass 4 finds nothing). -/
def Ropen (c d : Char) : Prop := ¬(c = '(' ∧ isWs d = true)

/-- No whitespace immediately before `)` (pass 5 finds nothing). -/
def Rclose (c d : Char) : Prop := ¬(isWs c = true ∧ (d == ')') = true)

/-- The first character, if any, is not whitespace. -/
def noLeadWs (l : List Char) : Prop := ∀ c ∈ l.head?, isWs c = false

/-- The last character, if any, is not whitespace. -/
def noTrailWs (l : List Char) : Prop := ∀ c ∈ l.getLast?, isWs c = false

/-- Every whitespace character is the plain space. -/
def wsSpace (l : List Char) : Prop := ∀ c ∈ l, isWs c = true → c = ' '

/-- Sanitizer normal form: the conjunction of all fixed-point
conditions of the five passes of `LCBLog::crush`. -/
def CrushNF (l : List Char) : Prop :=
  noLeadWs l ∧ noTrailWs l ∧ wsSpace l ∧
    List.Chain' Rws l ∧ List.Chain' Rpre l ∧
    List.Chain' Ropen l ∧ List.Chain' Rclose l

/-! ## Log levels, filtering and routing

`LogLevel` is an unscoped C++ enumeration `DEBUG = 0, INFO, WARN, ERROR,
FATAL`.  Its values are modelled as natural numbers; per the C++ rules
for an enumeration with enumerators `0 … 4` the value range of the type
is `0 … 7` (the range of a 3-bit unsigned bit-field that can hold every
enumerator). -/

/-- Enumerator values of `LogLevel`. -/
def DEBUG : Nat := 0
def INFO : Nat := 1
def WARN : Nat := 2
def ERROR : Nat := 3
def FATAL : Nat := 4

/-- `logLevelToString` (lcblog.cpp): name of a level, `"UNKNOWN"` for any
value that is not a named enumerator. -/
def logLevelToString (level : Nat) : String :=
  if level = 0 then "DEBUG"
  else if level = 1 then "INFO"
  else if level = 2 then "WARN"
  else if level = 3 then "ERROR"
  else if level = 4 then "FATAL"
  else "UNKNOWN"

/-- The level-tag padding in `LCBLog::logToStream`: pad the level name on
the right with spaces to width 5 when it is shorter. -/
def padLevel (s : String) : String :=
  if s.length < 5 then s ++ String.mk (List.replicate (5 - s.length) ' ') else s

/-- `LCBLog::shouldLog`: `level >= logLevel` — the message level passes
when it is at least the stored threshold. -/
def shouldLogFn (threshold level : Nat) : Bool :=
  threshold ≤ level

/-- `LogEntry::Destination`. -/
inductive Dest where
  | Out : Dest
  | Err : Dest
deriving DecidableEq, Repr

/-- Destination selection in `LCBLog::log`:
`level >= LogLevel::ERROR ? Err : Out`. -/
def destOf (level : Nat) : Dest :=
  if ERROR ≤ level then Dest.Err else Dest.Out

/-! ## The bounded queues

Each destination has a `std::deque` of entries.  `LCBLog::log` pushes at
the back; when the queue already holds `maxQueueSize_` entries it first
pops the front (drop-oldest).  The worker pops from the front. -/

/-- `maxQueueSize_ = 1024` (lcblog.hpp). -/
def maxQueueSize : Nat := 1024

/-- `batchSize_ = 16` (lcblog.hpp). -/
def batchSize : Nat := 16

/-- The enqueue step of `LCBLog::log`, generic in the capacity:
`if (queue.size() >= cap) queue.pop_front(); queue.push_back(msg)`. -/
def enqueueDrop (cap : Nat) (q : List String) (msg : String) : List String :=
  if cap ≤ q.length then q.drop 1 ++ [msg] else q ++ [msg]

/-! ## Logger state and the dispatcher `LCBLog::log`

The mutable state a `log` call touches: the two queues, the threshold and
the timestamp flag.  Formatting is modelled below (`formatRecord`); `log`
composes the filter, the formatter, the routing and the bounded push. -/

structure LogSt where
  outQ : List String
  errQ : List String
  logLevel : Nat
  printTimestamps : Bool
deriving DecidableEq, Repr

/-- Fresh logger state as built by the constructor: empty queues,
threshold `INFO`, timestamps off. -/
def initSt : LogSt :=
  { outQ := [], errQ := [], logLevel := INFO, printTimestamps := false }

/-! ## Token conversion and the token-spacing step

Arguments of `LCBLog::log` are heterogeneous; the `toString` lambda in
`LCBLog::logToStream` (lcblog.tpp of the asynchronous revision) converts
each to text, rendering a floating-point value that compares equal to its
`long long` cast with `std::showpoint << std::fixed << std::setprecision(1)`
(one forced decimal digit).  A token is modelled as either a string or an
integral-valued floating-point number. -/

inductive Tok where
  | str : String → Tok
  | fnum : Int → Tok
deriving DecidableEq, Repr

/-- The `toString` lambda of `LCBLog::logToStream`: strings stream as
themselves; an integral floating-point value `n.0` streams as the integer
followed by exactly one decimal digit. -/
def tokStr : Tok → List Char
  | Tok.str s => s.data
  | Tok.fnum n => (toString n).data ++ ['.', '0']

/-- `shouldSkipSpace` of the asynchronous revision (the `lcblog.tpp`
included by `lcblog.hpp`): skip when the next token is empty or begins
with a punctuation character; insert when the previous token is empty;
skip when the previous token ends in whitespace; otherwise insert. -/
def shouldSkipSpaceP1 (prev curr : List Char) : Bool :=
  match curr.head? with
  | none => true
  | some f =>
      if isPunctC f then true
      else
        match prev.getLast? with
        | none => false
        | some l => isWs l

/-- `shouldSkipSpace` of the older synchronous revision
(`src/lcblog.tpp`): skip when either token is empty, when the previous
token ends in whitespace or an opening bracket, or when the next token
begins with a closing bracket; insert when the previous token's last
character is alphanumeric or punctuation; otherwise skip. -/
def shouldSkipSpaceTpp (prev curr : List Char) : Bool :=
  match prev.getLast?, curr.head? with
  | none, _ => true
  | _, none => true
  | some l, some f =>
      if isWs l then true
      else if l = '(' || l = '[' || l = '{' then true
      else if f = ')' || f = ']' || f = '}' then true
      else if isAlnumC l || isPunctC l then false
      else true

/-- Space insertion actually performed by the asynchronous revision's
joining loop: `logToStream` writes one space before `parts[i]` exactly
when `shouldSkipSpace(parts[i-1], parts[i])` is false. -/
def insertsSpaceP1 (prev next : List Char) : Bool :=
  !shouldSkipSpaceP1 prev next

/-- Space insertion performed by the older synchronous revision's
joining loop. -/
def insertsSpaceTpp (prev next : List Char) : Bool :=
  !shouldSkipSpaceTpp prev next

/-- The token-spacing rule list exactly as the specification (§4.2) and
claim C4 state it, rules evaluated in the stated order: (1) previous
token's trailing character whitespace → no space; (2) previous trailing
character an opening bracket → no space; (3) next token's leading
character a closing bracket or one of `. , ; !` → no space; (4) previous
token empty → no space; (5) otherwise one space. -/
def specInsertSpaceC4 (prev next : List Char) : Bool :=
  if prev.getLast?.any isWs then false
  else if prev.getLast?.any (fun l => l == '(' || l == '[' || l == '{') then false
  else if next.head?.any
      (fun f => f == ')' || f == ']' || f == '}' ||
                f == '.' || f == ',' || f == ';' || f == '!') then false
  else if prev.isEmpty then false
  else true

/-- The token-spacing rules the asynchronous revision actually
implements (the amendment of claim C4), in evaluation order: (1) next
token empty or its leading character punctuation (any `ispunct`
character, brackets included) → no space; (2) previous token empty → one
space; (3) previous token's trailing character whitespace → no space;
(4) otherwise one space. -/
def amendedInsertC4 (prev next : List Char) : Bool :=
  if next.head?.all isPunctC then false
  else if prev.isEmpty then true
  else if prev.getLast?.any isWs then false
  else true

/-- The token-joining loop of `LCBLog::logToStream` (asynchronous
revision): concatenate the converted parts, preceding `parts[i]` by one
space unless `shouldSkipSpace(parts[i-1], parts[i])`. -/
def joinParts : List (List Char) → List Char
  | [] => []
  | p :: rest => p ++ joinGo p rest
where
  joinGo (prev : List Char) : List (List Char) → List Char
    | [] => []
    | q :: qs =>
        (if shouldSkipSpaceP1 prev q then [] else [' ']) ++ q ++ joinGo q qs

/-- Worker for the `std::getline` loop: `cur` is the current line read
so far (in reverse).  A terminator emits the line; after a terminator
that ends the input `getline` fails at once, so no further (empty) line
is produced. -/
def splitGo (cur : List Char) : List Char → List (List Char)
  | [] => [cur.reverse]
  | c :: cs =>
      if c = '\n' then
        cur.reverse :: (match cs with
                        | [] => []
                        | _ :: _ => splitGo [] cs)
      else splitGo (c :: cur) cs

/-- The `std::getline` loop of `LCBLog::logToStream`: split the combined
string at `'\n'`, consuming each terminator; an empty input yields zero
lines, a trailing terminator yields no extra empty line. -/
def splitLines : List Char → List (List Char)
  | [] => []
  | c :: cs => splitGo [] (c :: cs)

/-- One tagged physical line of `LCBLog::logToStream` with timestamps
off: the line is sanitized by `crush` and prefixed `"[" ++ padded level
++ "] "`. -/
def tagLine (level : Nat) (line : List Char) : List Char :=
  '[' :: (padLevel (logLevelToString level)).data ++ ']' :: ' ' :: crushL line

/-- `LCBLog::logToStream` of the asynchronous revision with
`printTimestamps == false` (the timestamp generator reads the system
clock and lies outside the model; every claim that evaluates the
formatter has timestamps off): convert the tokens, join them with the
spacing rule, split into physical lines, sanitize and tag each line,
separate lines by `'\n'` and end the record with one `'\n'`; a message
with zero physical lines still produces one tag-only record. -/
def formatRecord (level : Nat) (toks : List Tok) : List Char :=
  match splitLines (joinParts (toks.map tokStr)) with
  | [] => tagLine level [] ++ ['\n']
  | ls => List.intercalate ['\n'] (ls.map (tagLine level)) ++ ['\n']

/-- `formatRecord` packaged as a `String`. -/
def formatStr (level : Nat) (toks : List Tok) : String :=
  ⟨formatRecord level toks⟩

/-- The sanitized body of a single-line message: what stands after the
`"[LEVEL] "` tag, i.e. the token join after `crush`. -/
def bodyLine (toks : List Tok) : List Char :=
  crushL (joinParts (toks.map tokStr))

/-- `LCBLog::log` of the asynchronous revision: return unchanged unless
`shouldLog(level)`; otherwise format the record, choose the destination
by `level >= ERROR`, and push onto that queue with drop-oldest at
capacity.  (Configuration fields are untouched.) -/
def logFn (st : LogSt) (level : Nat) (toks : List Tok) : LogSt :=
  if !(shouldLogFn st.logLevel level) then st
  else
    let msg := formatStr level toks
    match destOf level with
    | Dest.Err => { st with errQ := enqueueDrop maxQueueSize st.errQ msg }
    | Dest.Out => { st with outQ := enqueueDrop maxQueueSize st.outQ msg }

/-- `LCBLog::logS`: the body is exactly `log(level, args...)`. -/
def logSFn (st : LogSt) (level : Nat) (toks : List Tok) : LogSt :=
  logFn st level toks

/-- `LCBLog::logE`: the body is exactly `log(level, args...)`. -/
def logEFn (st : LogSt) (level : Nat) (toks : List Tok) : LogSt :=
  logFn st level toks

/-! ## One destination's queue–worker pipeline

For the ordering claim the interaction of producers and one worker on a
single destination is modelled as a trace of events: a producer push
(`LCBLog::log`'s bounded enqueue) or a worker batch move of `n` front
entries into its local buffer, which it then writes to the sink in
order (`LCBLog::workerLoop`). -/

structure WQ where
  q : List String
  sink : List String
deriving DecidableEq, Repr

inductive Ev where
  | push : String → Ev
  | drain : Nat → Ev
deriving DecidableEq, Repr

/-- Effect of one event: a push is `LCBLog::log`'s bounded enqueue; a
drain moves the first `n` queued entries (fewer if the queue is shorter)
to the sink in FIFO order, as one iteration of `LCBLog::workerLoop`
does with `n ≤ batchSize_`. -/
def stepEv (s : WQ) : Ev → WQ
  | Ev.push m => { s with q := enqueueDrop maxQueueSize s.q m }
  | Ev.drain n => { q := s.q.drop n, sink := s.sink ++ s.q.take n }

/-- Run a trace of events. -/
def runEvs (s : WQ) (evs : List Ev) : WQ :=
  evs.foldl stepEv s

/-- The trace never pushes onto a full queue (so the drop-oldest branch
of `LCBLog::log` never fires). -/
def noOverflowRun (s : WQ) : List Ev → Bool
  | [] => true
  | e :: es =>
      (match e with
       | Ev.push _ => decide (s.q.length < maxQueueSize)
       | Ev.drain _ => true) && noOverflowRun (stepEv s e) es

/-- The messages a trace submits, in submission order. -/
def pushedOf (evs : List Ev) : List String :=
  evs.filterMap fun e => match e with
    | Ev.push m => some m
    | Ev.drain _ => none

/-! ## The worker after shutdown is requested

`LCBLog::~LCBLog` stores `done_ = true` and joins the workers, so after
the flag is set no further entry is enqueued.  From that moment one
worker behaves as: while the queue is non-empty, move up to `batchSize_`
front entries out and write them (flushing or not depending on the
timer); when the queue is observed empty the loop exits, the final drain
writes any remainder (none) and flushes, and the thread terminates. -/

structure WSt where
  queue : List String
  sink : List String
  term : Bool
  flushed : Bool
deriving DecidableEq, Repr

/-- Step relation of `LCBLog::workerLoop` once `done_` is set.
`batch` is one iteration of the main loop (the written batch is
`min batchSize_ (queue.size)` front entries; whether the stream is
flushed depends on batch size and the timer, left nondeterministic);
`exit` is the loop exit on an empty queue followed by the final drain
and final flush, after which the thread is terminated. -/
inductive WStep : WSt → WSt → Prop where
  | batch : ∀ q sink fl fl', q ≠ [] →
      WStep ⟨q, sink, false, fl⟩
            ⟨q.drop batchSize, sink ++ q.take batchSize, false, fl'⟩
  | exit : ∀ q sink fl, q = [] →
      WStep ⟨q, sink, false, fl⟩ ⟨[], sink ++ q, true, true⟩

/-- Worker state at the moment `done_` is set: whatever is queued, with
the thread still running. -/
def wInit (q sink : List String) : WSt :=
  ⟨q, sink, false, false⟩

/-! ## Helper lemmas -/

/-- The bounded push of `LCBLog::log` never grows a queue beyond the
capacity (generic in the capacity). -/
theorem enqueueDrop_length_le {cap : Nat} (hcap : 0 < cap)
    (q : List String) (m : String) (h : q.length ≤ cap) :
    (enqueueDrop cap q m).length ≤ cap := by
  unfold enqueueDrop
  split
  · rename_i hfull
    simp only [List.length_append, List.length_drop, List.length_cons,
      List.length_nil]
    omega
  · rename_i hnot
    simp only [List.length_append, List.length_cons, List.length_nil]
    omega

/-- Folding the bounded push from the empty queue keeps exactly the last
`cap` submissions (generic in the capacity). -/
theorem foldl_enqueueDrop (cap : Nat) (hcap : 0 < cap) (msgs : List String) :
    msgs.foldl (enqueueDrop cap) [] = msgs.drop (msgs.length - cap) := by
  induction msgs using List.reverseRecOn with
  | nil => simp
  | append_singleton msgs m ih =>
      rw [List.foldl_append, List.foldl_cons, List.foldl_nil, ih]
      by_cases hlen : cap ≤ msgs.length
      · have hq : (msgs.drop (msgs.length - cap)).length = cap := by
          simp only [List.length_drop]; omega
        have hfull : cap ≤ (msgs.drop (msgs.length - cap)).length := hq.ge
        rw [enqueueDrop, if_pos hfull, List.drop_drop,
          List.drop_append_of_le_length (by simp; omega)]
        congr 2
        simp only [List.length_append, List.length_cons, List.length_nil]
        omega
      · have h0 : msgs.length - cap = 0 := by omega
        have h1 : (msgs ++ [m]).length - cap = 0 := by
          simp only [List.length_append, List.length_cons, List.length_nil]
          omega
        rw [h0, h1, List.drop_zero, List.drop_zero, enqueueDrop,
          if_neg (by simpa using by omega)]

/-! ### Sanitizer lemmas: pass 1 (trim) -/

theorem head?_dropWhile_false (p : Char → Bool) (l : List Char) :
    ∀ c ∈ (l.dropWhile p).head?, p c = false := by
  induction l with
  | nil => simp
  | cons a t ih =>
      by_cases h : p a
      · simpa [List.dropWhile_cons, h] using ih
      · intro c hc
        rw [List.dropWhile_cons, if_neg (by simpa using h)] at hc
        simp only [List.head?_cons, Option.mem_def, Option.some.injEq] at hc
        subst hc
        simpa using h

theorem dropWhile_eq_self_of_head (p : Char → Bool) (l : List Char)
    (h : ∀ c ∈ l.head?, p c = false) : l.dropWhile p = l := by
  cases l with
  | nil => rfl
  | cons a t =>
      have ha : p a = false := h a (by simp)
      simp [List.dropWhile_cons, ha]

theorem getLast?_dropWhile (p : Char → Bool) (l : List Char)
    (h : l.dropWhile p ≠ []) : (l.dropWhile p).getLast? = l.getLast? := by
  conv_rhs => rw [← List.takeWhile_append_dropWhile (p := p) (l := l)]
  exact (List.getLast?_append_of_ne_nil _ h).symm

/-- After pass 1 the first character is not whitespace. -/
theorem trim_noLead (s : List Char) : noLeadWs (trimL s) := by
  intro c hc
  unfold trimL at hc
  rw [List.head?_reverse] at hc
  by_cases hz : ((s.dropWhile isWs).reverse.dropWhile isWs) = []
  · rw [hz] at hc; simp at hc
  · rw [getLast?_dropWhile _ _ hz, List.getLast?_reverse] at hc
    exact head?_dropWhile_false isWs _ c hc

/-- After pass 1 the last character is not whitespace. -/
theorem trim_noTrail (s : List Char) : noTrailWs (trimL s) := by
  intro c hc
  unfold trimL at hc
  rw [List.getLast?_reverse] at hc
  exact head?_dropWhile_false isWs _ c hc

/-- Pass 1 is the identity on strings with no whitespace at either
end. -/
theorem trim_eq_self (s : List Char) (h1 : noLeadWs s) (h2 : noTrailWs s) :
    trimL s = s := by
  unfold trimL
  rw [dropWhile_eq_self_of_head isWs s h1,
    dropWhile_eq_self_of_head isWs s.reverse
      (by simpa [List.head?_reverse] using h2),
    List.reverse_reverse]

/-! ### Sanitizer lemmas: pass 2 (collapse) -/

theorem collapse_head (l : List Char) :
    (collapseL l).head? = l.head?.map (fun c => if isWs c then ' ' else c) := by
  induction l with
  | nil => simp [collapseL]
  | cons c t ih =>
      cases t with
      | nil => by_cases h : isWs c <;> simp [collapseL, h]
      | cons d u =>
          by_cases h : isWs c
          · by_cases h2 : isWs d
            · rw [show collapseL (c :: d :: u) = collapseL (d :: u) by
                simp [collapseL, h, h2], ih]
              simp [h, h2]
            · simp [collapseL, h, h2]
          · simp [collapseL, h]

theorem collapse_ne_nil (l : List Char) (h : l ≠ []) : collapseL l ≠ [] := by
  intro hc
  have := collapse_head l
  rw [hc] at this
  obtain ⟨b, L, rfl⟩ := List.exists_cons_of_ne_nil h
  simp at this

/-- Pass 2 leaves only plain spaces as whitespace. -/
theorem collapse_wsSpace (l : List Char) : wsSpace (collapseL l) := by
  induction l with
  | nil => intro c hc; simp [collapseL] at hc
  | cons c t ih =>
      cases t with
      | nil =>
          intro x hx hwx
          by_cases h : isWs c <;> simp [collapseL, h] at hx
          · exact hx
          · subst hx; exact absurd hwx (by simp [h])
      | cons d u =>
          intro x hx hwx
          by_cases h : isWs c
          · by_cases h2 : isWs d
            · rw [show collapseL (c :: d :: u) = collapseL (d :: u) by
                simp [collapseL, h, h2]] at hx
              exact ih x hx hwx
            · rw [show collapseL (c :: d :: u) = ' ' :: collapseL (d :: u) by
                simp [collapseL, h, h2]] at hx
              rcases List.mem_cons.mp hx with h3 | h3
              · exact h3
              · exact ih x h3 hwx
          · rw [show collapseL (c :: d :: u) = c :: collapseL (d :: u) by
                simp [collapseL, h]] at hx
            rcases List.mem_cons.mp hx with h3 | h3
            · subst h3; exact absurd hwx (by simp [h])
            · exact ih x h3 hwx

/-- Pass 2 leaves no two adjacent whitespace characters. -/
theorem collapse_chain_rws (l : List Char) : List.Chain' Rws (collapseL l) := by
  induction l with
  | nil => simp [collapseL]
  | cons c t ih =>
      cases t with
      | nil => by_cases h : isWs c <;> simp [collapseL, h]
      | cons d u =>
          by_cases h : isWs c
          · by_cases h2 : isWs d
            · rw [show collapseL (c :: d :: u) = collapseL (d :: u) by
                simp [collapseL, h, h2]]
              exact ih
            · rw [show collapseL (c :: d :: u) = ' ' :: collapseL (d :: u) by
                simp [collapseL, h, h2]]
              refine List.chain'_cons'.mpr ⟨?_, ih⟩
              intro y hy
              rw [collapse_head (d :: u)] at hy
              simp only [List.head?_cons, Option.map_some', Option.mem_def,
                Option.some.injEq] at hy
              subst hy
              simp [Rws, h2]
          · rw [show collapseL (c :: d :: u) = c :: collapseL (d :: u) by
                simp [collapseL, h]]
            refine List.chain'_cons'.mpr ⟨?_, ih⟩
            intro y _
            simp [Rws, h]

theorem collapse_noLead (l : List Char) (h : noLeadWs l) :
    noLeadWs (collapseL l) := by
  intro c hc
  rw [collapse_head] at hc
  cases l with
  | nil => simp at hc
  | cons a t =>
      have ha : isWs a = false := h a (by simp)
      simp only [List.head?_cons, Option.map_some', Option.mem_def,
        Option.some.injEq, ha, if_false] at hc
      subst hc
      exact ha

theorem collapse_noTrail (l : List Char) (h : noTrailWs l) :
    noTrailWs (collapseL l) := by
  induction l with
  | nil => intro c hc; simp [collapseL] at hc
  | cons c t ih =>
      cases t with
      | nil =>
          have hc : isWs c = false := h c (by simp)
          intro x hx
          rw [show collapseL [c] = [c] by simp [collapseL, hc]] at hx
          simp only [List.getLast?_singleton, Option.mem_def,
            Option.some.injEq] at hx
          subst hx
          exact hc
      | cons d u =>
          have ht : noTrailWs (d :: u) := by
            intro x hx
            exact h x (by simpa [List.getLast?_cons_cons] using hx)
          by_cases hw : isWs c
          · by_cases h2 : isWs d
            · rw [show collapseL (c :: d :: u) = collapseL (d :: u) by
                simp [collapseL, hw, h2]]
              exact ih ht
            · rw [show collapseL (c :: d :: u) = ' ' :: collapseL (d :: u) by
                simp [collapseL, hw, h2]]
              intro x hx
              obtain ⟨b, L, hb⟩ := List.exists_cons_of_ne_nil
                (collapse_ne_nil (d :: u) (by simp))
              rw [hb, List.getLast?_cons_cons] at hx
              exact ih ht x (by rw [hb]; exact hx)
          · rw [show collapseL (c :: d :: u) = c :: collapseL (d :: u) by
                simp [collapseL, hw]]
            intro x hx
            obtain ⟨b, L, hb⟩ := List.exists_cons_of_ne_nil
              (collapse_ne_nil (d :: u) (by simp))
            rw [hb, List.getLast?_cons_cons] at hx
            exact ih ht x (by rw [hb]; exact hx)

/-- Pass 2 is the identity on strings whose whitespace is already
single plain spaces. -/
theorem collapse_eq_self (l : List Char) (h1 : List.Chain' Rws l)
    (h2 : wsSpace l) : collapseL l = l := by
  induction l with
  | nil => rfl
  | cons c t ih =>
      cases t with
      | nil =>
          by_cases h : isWs c
          · have : c = ' ' := h2 c (by simp) h
            simp [collapseL, h, this]
          · simp [collapseL, h]
      | cons d u =>
          have htail : List.Chain' Rws (d :: u) :=
            (List.chain'_cons.mp h1).2
          have h2t : wsSpace (d :: u) := by
            intro x hx hwx; exact h2 x (List.mem_cons_of_mem _ hx) hwx
          by_cases h : isWs c
          · have hd : isWs d = false := by
              have := (List.chain'_cons.mp h1).1
              simp only [Rws, not_and] at this
              by_cases hdd : isWs d
              · exact absurd hdd (by simpa using this h)
              · simpa using hdd
            have hsp : c = ' ' := h2 c (by simp) h
            rw [show collapseL (c :: d :: u) = ' ' :: collapseL (d :: u) by
              simp [collapseL, h, hd], ih htail h2t, hsp]
          · rw [show collapseL (c :: d :: u) = c :: collapseL (d :: u) by
              simp [collapseL, h], ih htail h2t]

/-! ### Sanitizer lemmas: passes 3 and 5 (whitespace before a trigger
character) -/

theorem dropWsGo_mem (p : Char → Bool) :
    ∀ (s pend : List Char) (c : Char), c ∈ dropWsGo p pend s →
      c ∈ pend.reverse ++ s := by
  intro s
  induction s with
  | nil => intro pend c hc; simpa [dropWsGo] using hc
  | cons a cs ih =>
      intro pend c hc
      by_cases hw : isWs a
      · rw [show dropWsGo p pend (a :: cs) = dropWsGo p (a :: pend) cs by
          simp [dropWsGo, hw]] at hc
        have := ih (a :: pend) c hc
        simpa [List.reverse_cons, List.append_assoc] using this
      · by_cases hpa : p a
        · rw [show dropWsGo p pend (a :: cs) = a :: dropWsGo p [] cs by
            simp [dropWsGo, hw, hpa]] at hc
          rcases List.mem_cons.mp hc with h | h
          · simp [h]
          · have := ih [] c h
            simp only [List.reverse_nil, List.nil_append] at this
            simp [this]
        · rw [show dropWsGo p pend (a :: cs)
              = pend.reverse ++ a :: dropWsGo p [] cs by
            simp [dropWsGo, hw, hpa]] at hc
          rcases List.mem_append.mp hc with h | h
          · simp [h]
          · rcases List.mem_cons.mp h with h2 | h2
            · simp [h2]
            · have := ih [] c h2
              simp only [List.reverse_nil, List.nil_append] at this
              simp [this]

theorem dropWsGo_head (p : Char → Bool)
    (hp : ∀ c, p c = true → isWs c = false) :
    ∀ (s pend : List Char) (c : Char), (dropWsGo p pend s).head? = some c →
      (pend.reverse ++ s).head? = some c ∨ isWs c = false := by
  intro s
  induction s with
  | nil => intro pend c hc; left; simpa [dropWsGo] using hc
  | cons a cs ih =>
      intro pend c hc
      by_cases hw : isWs a
      · rw [show dropWsGo p pend (a :: cs) = dropWsGo p (a :: pend) cs by
          simp [dropWsGo, hw]] at hc
        rcases ih (a :: pend) c hc with h | h
        · left; simpa [List.reverse_cons, List.append_assoc] using h
        · right; exact h
      · by_cases hpa : p a
        · rw [show dropWsGo p pend (a :: cs) = a :: dropWsGo p [] cs by
            simp [dropWsGo, hw, hpa]] at hc
          simp only [List.head?_cons, Option.some.injEq] at hc
          right
          rw [← hc]
          exact hp a hpa
        · rw [show dropWsGo p pend (a :: cs)
              = pend.reverse ++ a :: dropWsGo p [] cs by
            simp [dropWsGo, hw, hpa]] at hc
          cases pend with
          | nil =>
              simp only [List.reverse_nil, List.nil_append,
                List.head?_cons, Option.some.injEq] at hc
              right
              rw [← hc]
              simpa using hw
          | cons q qs =>
              have hne : (q :: qs).reverse ≠ [] := by simp
              rw [List.head?_append_of_ne_nil _ hne] at hc
              left
              rw [List.head?_append_of_ne_nil _ hne]
              exact hc

theorem dropWsGo_eq_nil (p : Char → Bool) :
    ∀ (s pend : List Char), dropWsGo p pend s = [] → pend = [] ∧ s = [] := by
  intro s
  induction s with
  | nil =>
      intro pend hc
      simp only [dropWsGo] at hc
      exact ⟨by simpa using congrArg List.reverse hc, rfl⟩
  | cons a cs ih =>
      intro pend hc
      by_cases hw : isWs a
      · rw [show dropWsGo p pend (a :: cs) = dropWsGo p (a :: pend) cs by
          simp [dropWsGo, hw]] at hc
        exact absurd (ih (a :: pend) hc).1 (by simp)
      · by_cases hpa : p a
        · rw [show dropWsGo p pend (a :: cs) = a :: dropWsGo p [] cs by
            simp [dropWsGo, hw, hpa]] at hc
          exact absurd hc (by simp)
        · rw [show dropWsGo p pend (a :: cs)
              = pend.reverse ++ a :: dropWsGo p [] cs by
            simp [dropWsGo, hw, hpa]] at hc
          exact absurd hc (by simp)

/-- Passes 3/5 leave no whitespace immediately before a trigger
character. -/
theorem dropWsGo_chain_new (p : Char → Bool)
    (hp : ∀ c, p c = true → isWs c = false) :
    ∀ (s pend : List Char), (∀ c ∈ pend, isWs c = true) →
      List.Chain' (fun c d => ¬(isWs c = true ∧ p d = true))
        (dropWsGo p pend s) := by
  have hallws : ∀ l : List Char, (∀ c ∈ l, isWs c = true) →
      List.Chain' (fun c d => ¬(isWs c = true ∧ p d = true)) l := by
    intro l hl
    induction l with
    | nil => simp
    | cons a t iht =>
        refine List.chain'_cons'.mpr ⟨?_, iht fun c hc =>
          hl c (List.mem_cons_of_mem _ hc)⟩
        intro y hy
        have hyw : isWs y = true := by
          cases t with
          | nil => simp at hy
          | cons b u =>
              simp only [List.head?_cons, Option.mem_def,
                Option.some.injEq] at hy
              exact hy ▸ hl b (by simp)
        intro hand
        exact absurd hyw (by simp [hp y hand.2])
  intro s
  induction s with
  | nil =>
      intro pend hpend
      simp only [dropWsGo]
      exact hallws _ fun c hc => hpend c (List.mem_reverse.mp hc)
  | cons a cs ih =>
      intro pend hpend
      by_cases hw : isWs a
      · rw [show dropWsGo p pend (a :: cs) = dropWsGo p (a :: pend) cs by
          simp [dropWsGo, hw]]
        refine ih (a :: pend) ?_
        intro c hc
        rcases List.mem_cons.mp hc with h | h
        · subst h; exact hw
        · exact hpend c h
      · by_cases hpa : p a
        · rw [show dropWsGo p pend (a :: cs) = a :: dropWsGo p [] cs by
            simp [dropWsGo, hw, hpa]]
          refine List.chain'_cons'.mpr ⟨?_, ih [] (by simp)⟩
          intro y _ hand
          exact absurd hand.1 (by simp [hw])
        · rw [show dropWsGo p pend (a :: cs)
              = pend.reverse ++ a :: dropWsGo p [] cs by
            simp [dropWsGo, hw, hpa]]
          refine List.chain'_append.mpr
            ⟨hallws _ fun c hc => hpend c (List.mem_reverse.mp hc),
             List.chain'_cons'.mpr ⟨?_, ih [] (by simp)⟩, ?_⟩
          · intro y _ hand
            exact absurd hand.1 (by simp [hw])
          · intro x _ y hy hand
            simp only [List.head?_cons, Option.mem_def,
              Option.some.injEq] at hy
            subst hy
            exact absurd hand.2 (by simp [hpa])

/-- Passes 3/5 preserve any adjacency condition that can only fail when
one side is whitespace: deletions only ever create new adjacencies
between two non-whitespace characters. -/
theorem dropWsGo_chain_keep (p : Char → Bool)
    (hp : ∀ c, p c = true → isWs c = false) {Q : Char → Char → Prop}
    (hQ : ∀ c d, isWs c = false → isWs d = false → Q c d) :
    ∀ (s pend : List Char), List.Chain' Q (pend.reverse ++ s) →
      List.Chain' Q (dropWsGo p pend s) := by
  intro s
  induction s with
  | nil =>
      intro pend hch
      simp only [dropWsGo]
      exact (List.chain'_append.mp hch).1
  | cons a cs ih =>
      intro pend hch
      have htail : List.Chain' Q (a :: cs) := (List.chain'_append.mp hch).2.1
      by_cases hw : isWs a
      · rw [show dropWsGo p pend (a :: cs) = dropWsGo p (a :: pend) cs by
          simp [dropWsGo, hw]]
        refine ih (a :: pend) ?_
        simpa [List.reverse_cons, List.append_assoc] using hch
      · have hcons : List.Chain' Q (a :: dropWsGo p [] cs) := by
          refine List.chain'_cons'.mpr ⟨?_, ih [] (by
            simpa using (List.chain'_cons'.mp htail).2)⟩
          intro y hy
          rcases dropWsGo_head p hp cs [] y hy with h | h
          · exact (List.chain'_cons'.mp htail).1 y
              (by simpa using h)
          · exact hQ a y (by simpa using hw) h
        by_cases hpa : p a
        · rw [show dropWsGo p pend (a :: cs) = a :: dropWsGo p [] cs by
            simp [dropWsGo, hw, hpa]]
          exact hcons
        · rw [show dropWsGo p pend (a :: cs)
              = pend.reverse ++ a :: dropWsGo p [] cs by
            simp [dropWsGo, hw, hpa]]
          refine List.chain'_append.mpr
            ⟨(List.chain'_append.mp hch).1, hcons, ?_⟩
          intro x hx y hy
          simp only [List.head?_cons, Option.mem_def,
            Option.some.injEq] at hy
          subst hy
          exact (List.chain'_append.mp hch).2.2 x hx a (by simp)

/-- Passes 3/5 leave the last character untouched when it is not
whitespace. -/
theorem dropWsGo_trail (p : Char → Bool) :
    ∀ (s pend : List Char),
      (∀ c ∈ (pend.reverse ++ s).getLast?, isWs c = false) →
      ∀ c ∈ (dropWsGo p pend s).getLast?, isWs c = false := by
  intro s
  induction s with
  | nil =>
      intro pend h c hc
      simp only [dropWsGo] at hc
      exact h c (by simpa using hc)
  | cons a cs ih =>
      intro pend h c hc
      by_cases hw : isWs a
      · rw [show dropWsGo p pend (a :: cs) = dropWsGo p (a :: pend) cs by
          simp [dropWsGo, hw]] at hc
        refine ih (a :: pend) ?_ c hc
        intro x hx
        refine h x ?_
        simpa [List.reverse_cons, List.append_assoc] using hx
      · have htailh : ∀ x ∈ (a :: cs).getLast?, isWs x = false := by
          intro x hx
          refine h x ?_
          rw [List.getLast?_append_of_ne_nil _ (by simp : (a :: cs) ≠ [])]
          exact hx
        have hinner : ∀ x ∈ (a :: dropWsGo p [] cs).getLast?,
            isWs x = false := by
          intro x hx
          cases hnil : dropWsGo p [] cs with
          | nil =>
              rw [hnil, List.getLast?_singleton] at hx
              simp only [Option.mem_def, Option.some.injEq] at hx
              rw [← hx]
              simpa using hw
          | cons b L =>
              rw [hnil, List.getLast?_cons_cons] at hx
              refine ih [] ?_ x (by rw [hnil]; exact hx)
              intro y hy
              have hcsne : cs ≠ [] := by
                intro hcs
                rw [hcs] at hnil
                simp [dropWsGo] at hnil
              refine htailh y ?_
              rw [show (a :: cs).getLast? = cs.getLast? by
                obtain ⟨b2, L2, hb2⟩ := List.exists_cons_of_ne_nil hcsne
                rw [hb2, List.getLast?_cons_cons]]
              simpa using hy
        by_cases hpa : p a
        · rw [show dropWsGo p pend (a :: cs) = a :: dropWsGo p [] cs by
            simp [dropWsGo, hw, hpa]] at hc
          exact hinner c hc
        · rw [show dropWsGo p pend (a :: cs)
              = pend.reverse ++ a :: dropWsGo p [] cs by
            simp [dropWsGo, hw, hpa]] at hc
          rw [List.getLast?_append_of_ne_nil _ (by simp)] at hc
          exact hinner c hc

/-- Passes 3/5 are the identity on strings with no whitespace run
before a trigger character. -/
theorem dropWsGo_eq_self (p : Char → Bool) :
    ∀ (s pend : List Char), (∀ c ∈ pend, isWs c = true) →
      (pend ≠ [] → ∀ f ∈ s.head?, p f = false) →
      List.Chain' (fun c d => ¬(isWs c = true ∧ p d = true)) s →
      dropWsGo p pend s = pend.reverse ++ s := by
  intro s
  induction s with
  | nil => intro pend _ _ _; simp [dropWsGo]
  | cons a cs ih =>
      intro pend hpend hseam hch
      by_cases hw : isWs a
      · rw [show dropWsGo p pend (a :: cs) = dropWsGo p (a :: pend) cs by
          simp [dropWsGo, hw]]
        rw [ih (a :: pend)
          (fun c hc => by
            rcases List.mem_cons.mp hc with h | h
            · subst h; exact hw
            · exact hpend c h)
          (fun _ f hf => by
            have := (List.chain'_cons'.mp hch).1 f hf
            simp only [not_and] at this
            by_cases hpf : p f
            · exact absurd hpf (by simpa using this hw)
            · simpa using hpf)
          (List.chain'_cons'.mp hch).2]
        simp [List.reverse_cons, List.append_assoc]
      · by_cases hpa : p a
        · have hpend0 : pend = [] := by
            by_cases hp0 : pend = []
            · exact hp0
            · exact absurd hpa (by simpa using hseam hp0 a (by simp))
          subst hpend0
          rw [show dropWsGo p [] (a :: cs) = a :: dropWsGo p [] cs by
            simp [dropWsGo, hw, hpa]]
          rw [ih [] (by simp) (by simp) (List.chain'_cons'.mp hch).2]
          simp
        · rw [show dropWsGo p pend (a :: cs)
              = pend.reverse ++ a :: dropWsGo p [] cs by
            simp [dropWsGo, hw, hpa]]
          rw [ih [] (by simp) (by simp) (List.chain'_cons'.mp hch).2]
          simp

/-! ### Sanitizer lemmas: pass 4 (whitespace after an opening
parenthesis) -/

theorem isWs_lparen : isWs '(' = false := by decide

theorem popen_head_false (s : List Char) :
    (parenOpenGo false s).head? = s.head? := by
  cases s with
  | nil => rfl
  | cons a cs =>
      by_cases h : a = '(' <;> simp [parenOpenGo, h]

theorem popen_head_true :
    ∀ (s : List Char) (c : Char), (parenOpenGo true s).head? = some c →
      isWs c = false := by
  intro s
  induction s with
  | nil => intro c hc; simp [parenOpenGo] at hc
  | cons a cs ih =>
      intro c hc
      by_cases hw : isWs a
      · rw [show parenOpenGo true (a :: cs) = parenOpenGo true cs by
          simp [parenOpenGo, hw]] at hc
        exact ih c hc
      · have : (parenOpenGo true (a :: cs)).head? = some a := by
          by_cases h : a = '(' <;> simp [parenOpenGo, hw, h, isWs_lparen]
        rw [this] at hc
        simp only [Option.some.injEq] at hc
        rw [← hc]
        simpa using hw

theorem popen_mem : ∀ (flag : Bool) (s : List Char) (c : Char),
    c ∈ parenOpenGo flag s → c ∈ s := by
  intro flag s
  induction s generalizing flag with
  | nil => intro c hc; simp [parenOpenGo] at hc
  | cons a cs ih =>
      intro c hc
      by_cases hw : flag && isWs a
      · rw [show parenOpenGo flag (a :: cs) = parenOpenGo true cs by
          rcases Bool.and_eq_true .. |>.mp hw with ⟨h1, h2⟩
          cases flag <;> simp_all [parenOpenGo]] at hc
        exact List.mem_cons_of_mem _ (ih true c hc)
      · have hsplit : ∃ fl, parenOpenGo flag (a :: cs)
            = a :: parenOpenGo fl cs := by
          by_cases h : a = '('
          · exact ⟨true, by simp [parenOpenGo, hw, h, isWs_lparen]⟩
          · exact ⟨false, by simp [parenOpenGo, hw, h, isWs_lparen]⟩
        obtain ⟨fl, hfl⟩ := hsplit
        rw [hfl] at hc
        rcases List.mem_cons.mp hc with h | h
        · simp [h]
        · exact List.mem_cons_of_mem _ (ih fl c h)

theorem popen_true_nil : ∀ s : List Char, parenOpenGo true s = [] →
    ∀ x ∈ s, isWs x = true := by
  intro s
  induction s with
  | nil => simp
  | cons a cs ih =>
      intro hnil x hx
      by_cases hw : isWs a
      · rw [show parenOpenGo true (a :: cs) = parenOpenGo true cs by
          simp [parenOpenGo, hw]] at hnil
        rcases List.mem_cons.mp hx with h | h
        · rw [h]; exact hw
        · exact ih hnil x h
      · exfalso
        by_cases h : a = '(' <;> simp [parenOpenGo, hw, h, isWs_lparen] at hnil

theorem popen_false_nil : ∀ s : List Char, parenOpenGo false s = [] →
    s = [] := by
  intro s
  cases s with
  | nil => intro _; rfl
  | cons a cs =>
      intro hnil
      by_cases h : a = '(' <;> simp [parenOpenGo, h] at hnil

/-- Pass 4 leaves no whitespace immediately after an opening
parenthesis. -/
theorem popen_chain_new : ∀ (flag : Bool) (s : List Char),
    List.Chain' Ropen (parenOpenGo flag s) := by
  intro flag s
  induction s generalizing flag with
  | nil => simp [parenOpenGo]
  | cons a cs ih =>
      by_cases hw : flag && isWs a
      · rw [show parenOpenGo flag (a :: cs) = parenOpenGo true cs by
          rcases Bool.and_eq_true .. |>.mp hw with ⟨h1, h2⟩
          cases flag <;> simp_all [parenOpenGo]]
        exact ih true
      · by_cases h : a = '('
        · rw [show parenOpenGo flag (a :: cs) = a :: parenOpenGo true cs by
            simp [parenOpenGo, hw, h, isWs_lparen]]
          refine List.chain'_cons'.mpr ⟨?_, ih true⟩
          intro y hy
          have := popen_head_true cs y hy
          simp [Ropen, this]
        · rw [show parenOpenGo flag (a :: cs) = a :: parenOpenGo false cs by
            simp [parenOpenGo, hw, h, isWs_lparen]]
          refine List.chain'_cons'.mpr ⟨?_, ih false⟩
          intro y _
          simp [Ropen, h]

/-- Pass 4 preserves any adjacency condition that can only fail when
one side is whitespace. -/
theorem popen_chain_keep {Q : Char → Char → Prop}
    (hQ : ∀ c d, isWs c = false → isWs d = false → Q c d) :
    ∀ (flag : Bool) (s : List Char), List.Chain' Q s →
      List.Chain' Q (parenOpenGo flag s) := by
  intro flag s
  induction s generalizing flag with
  | nil => simp [parenOpenGo]
  | cons a cs ih =>
      intro hch
      have htail : List.Chain' Q cs := (List.chain'_cons'.mp hch).2
      by_cases hw : flag && isWs a
      · rw [show parenOpenGo flag (a :: cs) = parenOpenGo true cs by
          rcases Bool.and_eq_true .. |>.mp hw with ⟨h1, h2⟩
          cases flag <;> simp_all [parenOpenGo]]
        exact ih true htail
      · by_cases h : a = '('
        · rw [show parenOpenGo flag (a :: cs) = a :: parenOpenGo true cs by
            simp [parenOpenGo, hw, h, isWs_lparen]]
          refine List.chain'_cons'.mpr ⟨?_, ih true htail⟩
          intro y hy
          have hynw := popen_head_true cs y hy
          refine hQ a y ?_ hynw
          rw [h]; decide
        · rw [show parenOpenGo flag (a :: cs) = a :: parenOpenGo false cs by
            simp [parenOpenGo, hw, h, isWs_lparen]]
          refine List.chain'_cons'.mpr ⟨?_, ih false htail⟩
          intro y hy
          rw [popen_head_false cs] at hy
          exact (List.chain'_cons'.mp hch).1 y hy

/-- Pass 4 leaves the last character untouched when it is not
whitespace. -/
theorem popen_trail : ∀ (flag : Bool) (s : List Char),
    (∀ c ∈ s.getLast?, isWs c = false) →
    ∀ c ∈ (parenOpenGo flag s).getLast?, isWs c = false := by
  intro flag s
  induction s generalizing flag with
  | nil => intro _ c hc; simp [parenOpenGo] at hc
  | cons a cs ih =>
      intro h c hc
      have htransfer : cs ≠ [] → ∀ x ∈ cs.getLast?, isWs x = false := by
        intro hne x hx
        obtain ⟨b, L, hb⟩ := List.exists_cons_of_ne_nil hne
        refine h x ?_
        rw [hb, List.getLast?_cons_cons]
        rw [hb] at hx
        exact hx
      by_cases hw : flag && isWs a
      · rw [show parenOpenGo flag (a :: cs) = parenOpenGo true cs by
          rcases Bool.and_eq_true .. |>.mp hw with ⟨h1, h2⟩
          cases flag <;> simp_all [parenOpenGo]] at hc
        cases hcs : cs with
        | nil => rw [hcs] at hc; simp [parenOpenGo] at hc
        | cons b L =>
            subst hcs
            exact ih true (htransfer (by simp)) c hc
      · have hsplit : ∃ fl, parenOpenGo flag (a :: cs)
            = a :: parenOpenGo fl cs := by
          by_cases h2 : a = '('
          · exact ⟨true, by simp [parenOpenGo, hw, h2, isWs_lparen]⟩
          · exact ⟨false, by simp [parenOpenGo, hw, h2, isWs_lparen]⟩
        obtain ⟨fl, hfl⟩ := hsplit
        rw [hfl] at hc
        cases hinner : parenOpenGo fl cs with
        | nil =>
            rw [hinner, List.getLast?_singleton] at hc
            simp only [Option.mem_def, Option.some.injEq] at hc
            rw [← hc]
            have hcs : cs = [] ∨ (∀ x ∈ cs, isWs x = true) := by
              cases fl with
              | false => exact Or.inl (popen_false_nil cs hinner)
              | true => exact Or.inr (popen_true_nil cs hinner)
            rcases hcs with hcs | hallws
            · subst hcs
              exact h a (by simp)
            · cases hcs2 : cs with
              | nil => subst hcs2; exact h a (by simp)
              | cons b L =>
                  exfalso
                  obtain ⟨y, hy⟩ := Option.isSome_iff_exists.mp
                    (List.getLast?_isSome.mpr (by simp [hcs2] : cs ≠ []))
                  have hyw : isWs y = true :=
                    hallws y (List.mem_of_mem_getLast? hy)
                  have hynw : isWs y = false :=
                    htransfer (by simp [hcs2]) y hy
                  rw [hyw] at hynw
                  exact absurd hynw (by simp)
        | cons b L =>
            rw [hinner, List.getLast?_cons_cons] at hc
            have hcsne : cs ≠ [] := by
              intro h2
              rw [h2] at hinner
              simp [parenOpenGo] at hinner
            exact ih fl (htransfer hcsne) c (by rw [hinner]; exact hc)

/-- Pass 4 is the identity on strings with no whitespace after an
opening parenthesis. -/
theorem popen_eq_self : ∀ (flag : Bool) (s : List Char),
    List.Chain' Ropen s → (flag = true → ∀ c ∈ s.head?, isWs c = false) →
    parenOpenGo flag s = s := by
  intro flag s
  induction s generalizing flag with
  | nil => intro _ _; rfl
  | cons a cs ih =>
      intro hch hhead
      by_cases hw : flag && isWs a
      · exfalso
        rcases Bool.and_eq_true .. |>.mp hw with ⟨h1, h2⟩
        exact absurd h2 (by simp [hhead h1 a (by simp)])
      · by_cases h : a = '('
        · rw [show parenOpenGo flag (a :: cs) = a :: parenOpenGo true cs by
            simp [parenOpenGo, hw, h, isWs_lparen]]
          rw [ih true (List.chain'_cons'.mp hch).2 ?_]
          intro _ c hc
          have hpair := (List.chain'_cons'.mp hch).1 c hc
          unfold Ropen at hpair
          by_cases hwc : isWs c
          · exact absurd (And.intro h hwc) hpair
          · simpa using hwc
        · rw [show parenOpenGo flag (a :: cs) = a :: parenOpenGo false cs by
            simp [parenOpenGo, hw, h]]
          rw [ih false (List.chain'_cons'.mp hch).2 (by simp)]

/-! ### Character-class facts and adjacency-condition side conditions -/

theorem pre_not_ws : ∀ c, isPrePunct c = true → isWs c = false := by
  intro c h
  simp only [isPrePunct, Bool.or_eq_true, beq_iff_eq] at h
  rcases h with ((((h | h) | h) | h) | h) | h <;> subst h <;> decide

theorem close_not_ws : ∀ c : Char, (c == ')') = true → isWs c = false := by
  intro c h
  rw [beq_iff_eq] at h
  subst h
  decide

theorem hQ_rws : ∀ c d : Char, isWs c = false → isWs d = false → Rws c d := by
  intro c d hc _
  simp [Rws, hc]

theorem hQ_rpre : ∀ c d : Char, isWs c = false → isWs d = false →
    Rpre c d := by
  intro c d hc _
  simp [Rpre, hc]

theorem hQ_ropen : ∀ c d : Char, isWs c = false → isWs d = false →
    Ropen c d := by
  intro c d _ hd
  simp [Ropen, hd]

theorem hQ_rclose : ∀ c d : Char, isWs c = false → isWs d = false →
    Rclose c d := by
  intro c d hc _
  simp [Rclose, hc]

/-! ### The sanitizer reaches its normal form and fixes it -/

/-- `crush` leaves every string in sanitizer normal form. -/
theorem crushNF_crushL (s : List Char) : CrushNF (crushL s) := by
  have ht1 : noLeadWs (trimL s) := trim_noLead s
  have ht2 : noTrailWs (trimL s) := trim_noTrail s
  set t := trimL s with hdef
  have hu1 : noLeadWs (collapseL t) := collapse_noLead t ht1
  have hu2 : noTrailWs (collapseL t) := collapse_noTrail t ht2
  have hu3 : wsSpace (collapseL t) := collapse_wsSpace t
  have hu4 : List.Chain' Rws (collapseL t) := collapse_chain_rws t
  set u := collapseL t with hdefu
  -- pass 3
  have hv1 : noLeadWs (dropWsGo isPrePunct [] u) := by
    intro c hc
    rcases dropWsGo_head isPrePunct pre_not_ws u [] c hc with h | h
    · exact hu1 c (by simpa using h)
    · exact h
  have hv2 : noTrailWs (dropWsGo isPrePunct [] u) :=
    dropWsGo_trail isPrePunct u [] (by simpa using hu2)
  have hv3 : wsSpace (dropWsGo isPrePunct [] u) := by
    intro c hc hw
    exact hu3 c (by simpa using dropWsGo_mem isPrePunct u [] c hc) hw
  have hv4 : List.Chain' Rws (dropWsGo isPrePunct [] u) :=
    dropWsGo_chain_keep isPrePunct pre_not_ws hQ_rws u [] (by simpa using hu4)
  have hv5 : List.Chain' Rpre (dropWsGo isPrePunct [] u) :=
    dropWsGo_chain_new isPrePunct pre_not_ws u [] (by simp)
  set v := dropWsGo isPrePunct [] u with hdefv
  -- pass 4
  have hw1 : noLeadWs (parenOpenGo false v) := by
    intro c hc
    rw [popen_head_false v] at hc
    exact hv1 c hc
  have hw2 : noTrailWs (parenOpenGo false v) := popen_trail false v hv2
  have hw3 : wsSpace (parenOpenGo false v) := by
    intro c hc hw
    exact hv3 c (popen_mem false v c hc) hw
  have hw4 : List.Chain' Rws (parenOpenGo false v) :=
    popen_chain_keep hQ_rws false v hv4
  have hw5 : List.Chain' Rpre (parenOpenGo false v) :=
    popen_chain_keep hQ_rpre false v hv5
  have hw6 : List.Chain' Ropen (parenOpenGo false v) :=
    popen_chain_new false v
  set w := parenOpenGo false v with hdefw
  -- pass 5
  have hr1 : noLeadWs (dropWsGo (fun c => c == ')') [] w) := by
    intro c hc
    rcases dropWsGo_head _ close_not_ws w [] c hc with h | h
    · exact hw1 c (by simpa using h)
    · exact h
  have hr2 : noTrailWs (dropWsGo (fun c => c == ')') [] w) :=
    dropWsGo_trail _ w [] (by simpa using hw2)
  have hr3 : wsSpace (dropWsGo (fun c => c == ')') [] w) := by
    intro c hc hw
    exact hw3 c (by simpa using dropWsGo_mem _ w [] c hc) hw
  have hr4 : List.Chain' Rws (dropWsGo (fun c => c == ')') [] w) :=
    dropWsGo_chain_keep _ close_not_ws hQ_rws w [] (by simpa using hw4)
  have hr5 : List.Chain' Rpre (dropWsGo (fun c => c == ')') [] w) :=
    dropWsGo_chain_keep _ close_not_ws hQ_rpre w [] (by simpa using hw5)
  have hr6 : List.Chain' Ropen (dropWsGo (fun c => c == ')') [] w) :=
    dropWsGo_chain_keep _ close_not_ws hQ_ropen w [] (by simpa using hw6)
  have hr7 : List.Chain' Rclose (dropWsGo (fun c => c == ')') [] w) :=
    dropWsGo_chain_new _ close_not_ws w [] (by simp)
  exact ⟨hr1, hr2, hr3, hr4, hr5, hr6, hr7⟩

/-- `crush` fixes every string in sanitizer normal form. -/
theorem crushL_eq_self_of_NF (s : List Char) (h : CrushNF s) :
    crushL s = s := by
  obtain ⟨h1, h2, h3, h4, h5, h6, h7⟩ := h
  unfold crushL dropWsBefore parenOpenL
  rw [trim_eq_self s h1 h2, collapse_eq_self s h4 h3]
  rw [show dropWsGo isPrePunct [] s = s by
    simpa using dropWsGo_eq_self isPrePunct s [] (by simp) (by simp) h5]
  rw [popen_eq_self false s h6 (by simp)]
  simpa using dropWsGo_eq_self (fun c => c == ')') s [] (by simp) (by simp) h7

/-- Trace invariant of one destination's pipeline: when no push ever
finds its queue full, sink followed by queue always equals the start
state's content followed by all pushed messages, in order. -/
theorem runEvs_content (evs : List Ev) : ∀ s : WQ, noOverflowRun s evs = true →
    (runEvs s evs).sink ++ (runEvs s evs).q = s.sink ++ s.q ++ pushedOf evs := by
  induction evs with
  | nil => intro s _; simp [runEvs, pushedOf]
  | cons e es ih =>
      intro s h
      rw [noOverflowRun.eq_def, Bool.and_eq_true] at h
      have hrun : runEvs s (e :: es) = runEvs (stepEv s e) es := by
        simp [runEvs]
      rw [hrun]
      cases e with
      | push m =>
          have hlt : s.q.length < maxQueueSize := by
            have := h.1; simpa using this
          have hstep : stepEv s (Ev.push m)
              = { s with q := s.q ++ [m] } := by
            simp [stepEv, enqueueDrop, Nat.not_le.mpr hlt]
          rw [ih _ h.2, hstep]
          simp [pushedOf, List.filterMap_cons]
      | drain n =>
          rw [ih _ h.2]
          simp [stepEv, pushedOf, List.filterMap_cons, List.append_assoc,
            List.take_append_drop]

/-- Invariant along the post-shutdown worker relation: writes preserve
the total content, and a terminated state has an empty queue and a
flushed sink. -/
theorem wstep_reach_inv {s t : WSt} (h : Relation.ReflTransGen WStep s t)
    (hs : s.term = false) :
    t.sink ++ t.queue = s.sink ++ s.queue ∧
    (t.term = true → t.queue = [] ∧ t.flushed = true) := by
  induction h with
  | refl => exact ⟨rfl, fun ht => absurd ht (by simp [hs])⟩
  | tail _ step ih =>
      cases step with
      | batch q sink fl fl' hne =>
          refine ⟨?_, fun ht => by simp at ht⟩
          have := ih.1
          simpa [List.append_assoc, List.take_append_drop] using this
      | exit q sink fl hq =>
          subst hq
          exact ⟨by simpa using ih.1, fun _ => ⟨rfl, rfl⟩⟩

/-- The post-shutdown worker always reaches a terminated state: each
batch iteration strictly shrinks a non-empty queue, and an empty queue
allows the exit step. -/
theorem wstep_terminates_aux : ∀ (n : Nat) (q sink : List String),
    q.length ≤ n → ∃ t, Relation.ReflTransGen WStep ⟨q, sink, false, false⟩ t ∧
      t.term = true := by
  intro n
  induction n with
  | zero =>
      intro q sink hq
      have hq0 : q = [] := List.length_eq_zero.mp (Nat.le_zero.mp hq)
      subst hq0
      exact ⟨⟨[], sink ++ [], true, true⟩,
        Relation.ReflTransGen.single (WStep.exit [] sink false rfl), rfl⟩
  | succ n ih =>
      intro q sink hq
      by_cases hne : q = []
      · subst hne
        exact ⟨⟨[], sink ++ [], true, true⟩,
          Relation.ReflTransGen.single (WStep.exit [] sink false rfl), rfl⟩
      · have hlen : (q.drop batchSize).length ≤ n := by
          have h1 : 0 < q.length := List.length_pos.mpr hne
          simp only [List.length_drop]
          have : batchSize = 16 := rfl
          omega
        obtain ⟨t, ht, htt⟩ := ih (q.drop batchSize) (sink ++ q.take batchSize) hlen
        exact ⟨t, Relation.ReflTransGen.head
          (WStep.batch q sink false false hne) ht, htt⟩

/-! ## Claim theorems -/

/-- C2: each queue holds at most `maxQueueSize = 1024` entries at all
times; a push onto a full queue evicts exactly the oldest entry and
never blocks; after `1024 + k` submissions with no intervening drain the
queue holds exactly the last `1024` submissions in order, the oldest `k`
having been dropped. -/
theorem queue_bounded_drop_oldest :
    (∀ (q : List String) (m : String), q.length ≤ maxQueueSize →
        (enqueueDrop maxQueueSize q m).length ≤ maxQueueSize) ∧
    (∀ (q : List String) (m : String), q.length = maxQueueSize →
        enqueueDrop maxQueueSize q m = q.drop 1 ++ [m]) ∧
    (∀ (msgs : List String) (k : Nat), msgs.length = maxQueueSize + k →
        msgs.foldl (enqueueDrop maxQueueSize) [] = msgs.drop k) := by
  refine ⟨fun q m h => enqueueDrop_length_le (by decide) q m h, ?_, ?_⟩
  · intro q m h
    rw [enqueueDrop, if_pos h.ge]
  · intro msgs k h
    rw [foldl_enqueueDrop maxQueueSize (by decide) msgs, h]
    congr 1
    omega

/-- Witness for C2 at concrete inputs: a full queue of `1024` entries
evicts its oldest entry on the next push, and `1025` submissions from
empty leave the last `1024`. -/
theorem queue_bounded_drop_oldest_witness :
    (enqueueDrop maxQueueSize (List.replicate 1024 "old") "new"
        = (List.replicate 1024 "old").drop 1 ++ ["new"]) ∧
    ((List.replicate 1025 "m").foldl (enqueueDrop maxQueueSize) []
        = (List.replicate 1025 "m").drop 1) :=
  ⟨queue_bounded_drop_oldest.2.1 _ _ (by simp [maxQueueSize]),
   queue_bounded_drop_oldest.2.2 _ 1 (by simp [maxQueueSize])⟩

/-- C7: the sanitizer is idempotent — for every string `s`,
`crush(crush(s)) = crush(s)`: one application reaches the sanitizer
normal form (trimmed ends, single plain spaces, no space before
`, . ! ? : ;`, none just inside parentheses), and a second application
fixes it. -/
theorem sanitize_idempotent (s : String) : crushStr (crushStr s) = crushStr s := by
  unfold crushStr
  exact congrArg String.mk
    (crushL_eq_self_of_NF (crushL s.data) (crushNF_crushL s.data))

/-- C9 (counterexample): a space immediately after `[` is not always
preserved — the general rules still apply: in `"[ ."` the space stands
before `.` and pass 3 removes it; in `"x [ "` it is trailing and pass 1
removes it. -/
theorem bracket_space_claim_refuted :
    crushStr "[ ." = "[." ∧ crushStr "[ ." ≠ "[ ." ∧
    crushStr "x [ " = "x [" ∧ crushStr "x [ " ≠ "x [ " := by
  refine ⟨?_, ?_, ?_, ?_⟩ <;> decide

/-- C9 (amended): the sanitizer treats only parentheses specially.  No
rule fires on square or curly brackets: a string already satisfying the
general whitespace constraints (trimmed ends, single plain spaces, no
space before `, . ! ? : ;`) and the parenthesis constraints is left
unchanged whatever spaces stand next to `[ ] { }` — in particular
`sanitize("[ x ]") = "[ x ]"` and `sanitize("{ x }") = "{ x }"`, while
`sanitize("( x )") = "(x)"`. -/
theorem bracket_spaces_not_special :
    crushStr "[ x ]" = "[ x ]" ∧ crushStr "{ x }" = "{ x }" ∧
    crushStr "( x )" = "(x)" ∧
    (∀ s : List Char, CrushNF s → crushL s = s) :=
  ⟨by decide, by decide, by decide, crushL_eq_self_of_NF⟩

/-- Witness for C9's amended claim: the normal-form hypothesis holds
for `"a [ b ]"` (spaces adjacent to the square brackets included) and
the sanitizer leaves it unchanged. -/
theorem bracket_spaces_not_special_witness :
    crushL "a [ b ]".data = "a [ b ]".data :=
  bracket_spaces_not_special.2.2.2 "a [ b ]".data
    (by
      show CrushNF ['a', ' ', '[', ' ', 'b', ' ', ']']
      refine ⟨?_, ?_, ?_, ?_, ?_, ?_, ?_⟩ <;>
        simp [noLeadWs, noTrailWs, wsSpace, List.chain'_cons,
          Rws, Rpre, Ropen, Rclose] <;> decide)

/-- C3: within one destination, records reach the sink in exactly the
order they were enqueued: along any trace of pushes and worker batch
moves that never finds the queue full, sink-then-queue is always the
submission sequence in order, and draining the remainder delivers
exactly one record per submission, in submission order — however the
worker partitioned the queue into batches. -/
theorem fifo_order_within_destination (evs : List Ev)
    (h : noOverflowRun ⟨[], []⟩ evs = true) :
    (runEvs ⟨[], []⟩ evs).sink ++ (runEvs ⟨[], []⟩ evs).q = pushedOf evs ∧
    (runEvs ⟨[], []⟩ (evs ++ [Ev.drain (runEvs ⟨[], []⟩ evs).q.length])).sink
        = pushedOf evs := by
  have hinv := runEvs_content evs ⟨[], []⟩ h
  simp only [List.nil_append] at hinv
  refine ⟨hinv, ?_⟩
  have hsplit : runEvs ⟨[], []⟩ (evs ++ [Ev.drain (runEvs ⟨[], []⟩ evs).q.length])
      = stepEv (runEvs ⟨[], []⟩ evs) (Ev.drain (runEvs ⟨[], []⟩ evs).q.length) := by
    simp [runEvs]
  rw [hsplit]
  simpa [stepEv, List.take_length] using hinv

/-- Witness for C3: three pushes interleaved with two worker batches of
different sizes still deliver `a, b, c` in order. -/
theorem fifo_order_within_destination_witness :
    noOverflowRun ⟨[], []⟩
        [Ev.push "a", Ev.push "b", Ev.drain 1, Ev.push "c"] = true ∧
    (runEvs ⟨[], []⟩ ([Ev.push "a", Ev.push "b", Ev.drain 1, Ev.push "c"] ++
        [Ev.drain (runEvs ⟨[], []⟩
          [Ev.push "a", Ev.push "b", Ev.drain 1, Ev.push "c"]).q.length])).sink
        = pushedOf [Ev.push "a", Ev.push "b", Ev.drain 1, Ev.push "c"] :=
  ⟨by decide,
   (fifo_order_within_destination
      [Ev.push "a", Ev.push "b", Ev.drain 1, Ev.push "c"] (by decide)).2⟩

/-- C1: once the done flag is set (after which nothing more is enqueued),
a worker reaches the terminated state only with an empty queue, having
written every formerly queued record to its sink in order and performed
the final flush; and it does reach a terminated state. -/
theorem shutdown_drains_fully :
    (∀ (q₀ s₀ : List String) (st : WSt),
        Relation.ReflTransGen WStep (wInit q₀ s₀) st → st.term = true →
        st.queue = [] ∧ st.sink = s₀ ++ q₀ ∧ st.flushed = true) ∧
    (∀ q₀ s₀ : List String, ∃ st,
        Relation.ReflTransGen WStep (wInit q₀ s₀) st ∧ st.term = true) := by
  constructor
  · intro q₀ s₀ st h ht
    obtain ⟨hcontent, hterm⟩ := wstep_reach_inv h rfl
    obtain ⟨hq, hfl⟩ := hterm ht
    refine ⟨hq, ?_, hfl⟩
    rw [hq, List.append_nil] at hcontent
    exact hcontent
  · intro q₀ s₀
    exact wstep_terminates_aux q₀.length q₀ s₀ le_rfl

/-- Witness for C1: a worker that holds one record at shutdown
terminates with that record written and the sink flushed. -/
theorem shutdown_drains_fully_witness :
    (⟨[], ["old", "queued"], true, true⟩ : WSt).queue = [] ∧
    (⟨[], ["old", "queued"], true, true⟩ : WSt).sink = ["old"] ++ ["queued"] ∧
    (⟨[], ["old", "queued"], true, true⟩ : WSt).flushed = true :=
  shutdown_drains_fully.1 ["queued"] ["old"] _
    (Relation.ReflTransGen.head
      (WStep.batch ["queued"] ["old"] false false (by decide))
      (Relation.ReflTransGen.single (WStep.exit _ _ _ rfl)))
    rfl

/-- C10: a submission whose level lies strictly below the current
threshold changes nothing: `log` returns before formatting and the whole
logger state — both queues, the threshold and the timestamp flag — is
exactly as before the call. -/
theorem filtered_log_is_noop (st : LogSt) (level : Nat) (toks : List Tok)
    (h : level < st.logLevel) : logFn st level toks = st := by
  have : shouldLogFn st.logLevel level = false := by
    simp [shouldLogFn]; omega
  simp [logFn, this]

/-- Witness for C10: a `DEBUG` submission against the default `INFO`
threshold leaves the fresh state untouched. -/
theorem filtered_log_is_noop_witness :
    logFn initSt DEBUG [Tok.str "x"] = initSt :=
  filtered_log_is_noop initSt DEBUG [Tok.str "x"] (by decide)

/-- C6 (failing input): `logE(INFO, "x")` enqueues on the
standard-output queue and leaves the error queue empty, and
`logS(FATAL, "x")` enqueues on the error queue — both aliases forward to
`log`, which routes solely by level, contradicting the documented
explicit routing. -/
theorem logS_logE_route_by_level_only :
    (logEFn initSt INFO [Tok.str "x"]).errQ = [] ∧
    (logEFn initSt INFO [Tok.str "x"]).outQ = [formatStr INFO [Tok.str "x"]] ∧
    (logSFn initSt FATAL [Tok.str "x"]).outQ = [] ∧
    (logSFn initSt FATAL [Tok.str "x"]).errQ = [formatStr FATAL [Tok.str "x"]] := by
  refine ⟨?_, ?_, ?_, ?_⟩ <;> rfl

/-- C8: a level value outside the named enumerators — by the C++ value
range of `LogLevel`, one of `5, 6, 7`, all above `FATAL` — passes the
threshold check for every threshold setting and is routed to the error
destination like an `ERROR`-or-above record (and is enqueued, not
silently dropped). -/
theorem invalid_level_treated_as_max_severity
    (lvl : Nat) (h1 : FATAL < lvl) (h2 : lvl ≤ 7)
    (st : LogSt) (h3 : st.logLevel ≤ FATAL) (toks : List Tok) :
    shouldLogFn st.logLevel lvl = true ∧ destOf lvl = Dest.Err ∧
    (logFn st lvl toks).errQ
        = enqueueDrop maxQueueSize st.errQ (formatStr lvl toks) ∧
    (logFn st lvl toks).outQ = st.outQ := by
  have h1' : 4 < lvl := h1
  have h3' : st.logLevel ≤ 4 := h3
  have hs : shouldLogFn st.logLevel lvl = true := by
    simp [shouldLogFn]; omega
  have hd : destOf lvl = Dest.Err := by
    have : 3 ≤ lvl := by omega
    simp [destOf, ERROR, this]
  refine ⟨hs, hd, ?_, ?_⟩ <;> simp [logFn, hs, hd]

/-- Witness for C8: level `7` against the strictest threshold `FATAL`. -/
theorem invalid_level_treated_as_max_severity_witness :
    shouldLogFn ({ initSt with logLevel := FATAL } : LogSt).logLevel 7 = true ∧
    destOf 7 = Dest.Err ∧
    (logFn { initSt with logLevel := FATAL } 7 [Tok.str "x"]).errQ
        = enqueueDrop maxQueueSize
            ({ initSt with logLevel := FATAL } : LogSt).errQ
            (formatStr 7 [Tok.str "x"]) ∧
    (logFn { initSt with logLevel := FATAL } 7 [Tok.str "x"]).outQ
        = ({ initSt with logLevel := FATAL } : LogSt).outQ :=
  invalid_level_treated_as_max_severity 7 (by decide) (by decide)
    { initSt with logLevel := FATAL } (by decide) [Tok.str "x"]

/-- C4 (counterexample): the spec's rule list disagrees with both cited
implementations.  The asynchronous revision inserts a space after an
opening parenthesis (`"("` then `"x"`), which rule 2 forbids; the older
synchronous revision inserts a space before `"."` (`"Word"` then `"."`),
which rule 3 forbids. -/
theorem token_spacing_spec_rules_refuted :
    (insertsSpaceP1 "(".data "x".data = true ∧
     specInsertSpaceC4 "(".data "x".data = false) ∧
    (insertsSpaceTpp "Word".data ".".data = true ∧
     specInsertSpaceC4 "Word".data ".".data = false) := by
  decide

/-- C4 (amended): the asynchronous revision's joining step inserts a
space iff, in order: the next token is nonempty and does not begin with
a punctuation character; and the previous token is empty, or its
trailing character is not whitespace. -/
theorem token_spacing_amended_rules (prev next : List Char) :
    insertsSpaceP1 prev next = amendedInsertC4 prev next := by
  cases next with
  | nil => simp [insertsSpaceP1, shouldSkipSpaceP1, amendedInsertC4]
  | cons f nt =>
      cases prev with
      | nil =>
          by_cases hf : isPunctC f <;>
            simp [insertsSpaceP1, shouldSkipSpaceP1, amendedInsertC4, hf]
      | cons p pt =>
          have hne : (p :: pt) ≠ [] := by simp
          obtain ⟨l, hl⟩ := Option.isSome_iff_exists.mp
            (List.getLast?_isSome.mpr hne)
          by_cases hf : isPunctC f <;> by_cases hw : isWs l <;>
            simp [insertsSpaceP1, shouldSkipSpaceP1, amendedInsertC4, hf, hl, hw]

/-- C5 (counterexample): with the asynchronous revision's spacing rule
the tokens `["Foo", "(", 0.0, ")"]` do not produce the body
`"Foo (0.0)"` the spec expects — `shouldSkipSpace` suppresses the space
before `"("` (its leading character is punctuation) and inserts one
after it, which `crush` then deletes. -/
theorem format_examples_refuted :
    String.mk (bodyLine [Tok.str "Foo", Tok.str "(", Tok.fnum 0, Tok.str ")"])
      ≠ "Foo (0.0)" := by
  decide

/-- C5 (amended): the pipeline produces body `"Foo(0.0)"` for
`["Foo", "(", 0.0, ")"]` and, as the spec states, `"Word."` for
`["Word", "."]` and `": Word"` for `[":", "Word"]`; the full records
carry the padded `INFO` tag and one trailing newline. -/
theorem format_examples_actual :
    String.mk (bodyLine [Tok.str "Foo", Tok.str "(", Tok.fnum 0, Tok.str ")"])
        = "Foo(0.0)" ∧
    formatStr INFO [Tok.str "Foo", Tok.str "(", Tok.fnum 0, Tok.str ")"]
        = "[INFO ] Foo(0.0)\n" ∧
    String.mk (bodyLine [Tok.str "Word", Tok.str "."]) = "Word." ∧
    formatStr INFO [Tok.str "Word", Tok.str "."] = "[INFO ] Word.\n" ∧
    String.mk (bodyLine [Tok.str ":", Tok.str "Word"]) = ": Word" ∧
    formatStr INFO [Tok.str ":", Tok.str "Word"] = "[INFO ] : Word\n" := by
  refine ⟨?_, ?_, ?_, ?_, ?_, ?_⟩ <;> decide

end LCBLog
